import Mathlib

/-!
Verification of the FreqDemod demodulation pipeline (`src/freqdemod/freqdemod.py`,
class `Signal`).  The code is Python 2 with numpy; machine floats are modelled as
exact rationals (`ℚ`), numpy arrays as `List`, and complex spectra as pairs of
rationals (`QC`).  External numeric kernels whose outputs are irrational
(`np.fft.fft`, `np.fft.ifft`, `np.unwrap(np.angle(.))/(2*pi)`, `abs` of a complex
array, `scipy.blackman`) are passed to the relevant stage as explicit function
parameters; every claim about them uses only the property that each preserves
array length, which numpy guarantees.  All arithmetic the claims quantify over
(time axes, frequency axes, masks, slopes, index computations) is rational in the
source and is embedded exactly.
-/

namespace FreqDemod

/-- Python 2 `round`: rounds half away from zero (`round(2.5) = 3`,
`round(-2.5) = -3`).  Used for `int(round(x))`. -/
def pyRound (q : ℚ) : ℤ := if 0 ≤ q then ⌊q + 1/2⌋ else ⌈q - 1/2⌉

/-- Python `int(x)` applied to a real value: truncation toward zero. -/
def pyInt (q : ℚ) : ℤ := if 0 ≤ q then ⌊q⌋ else ⌈q⌉

/-- Python slice `x[i:-i]` for a nonnegative integer `i`.  For `i = 0` this is
`x[0:0] = []` (the upper bound `-0` is `0`); otherwise it keeps the elements
from position `i` up to position `len - i` (clamped). -/
def pyTrimSlice {α : Type} (l : List α) (i : ℕ) : List α :=
  if i = 0 then [] else (l.drop i).take (l.length - 2*i)

/-- Python slice `x[-w:]` for a nonnegative integer `w`: the last `w` elements,
except that `w = 0` yields the whole list (`x[-0:] = x[0:]`). -/
def pyLastSlice {α : Type} (l : List α) (w : ℕ) : List α :=
  if w = 0 then l else l.drop (l.length - w)

/-- A complex number with rational real and imaginary parts, standing for a
numpy complex float. -/
abbrev QC : Type := ℚ × ℚ

/-- Squared magnitude of a complex value.  `np.argmax(abs(v))` is embedded as
`argmaxQ (v.map normSq)`: squaring is strictly monotone on nonnegative reals, so
the magnitude order, and hence the argmax (first index of the maximum), is the
same. -/
def normSq (z : QC) : ℚ := z.1^2 + z.2^2

/-- Multiplication of a complex value by a real (rational) filter coefficient. -/
def scaleQC (m : ℚ) (z : QC) : QC := (m * z.1, m * z.2)

/-- Accumulator loop for `np.argmax`: `i` is the index of the next element,
`best`/`bv` the index and value of the running maximum.  Only a strictly larger
value updates the maximum, so the first occurrence wins, as in numpy. -/
def argmaxAux : List ℚ → ℕ → ℕ → ℚ → ℕ
  | [], _, best, _ => best
  | x :: xs, i, best, bv =>
      if bv < x then argmaxAux xs (i+1) i x else argmaxAux xs (i+1) best bv

/-- `np.argmax` over a rational list (`0` on the empty list, as a placeholder;
the source never applies it to an empty array in the claims considered). -/
def argmaxQ : List ℚ → ℕ
  | [] => 0
  | x :: xs => argmaxAux xs 1 0 x

/-- `np.fft.fftfreq(n, d)`: entry `j` is `j/(n*d)` for `j < ceil(n/2)` and
`(j-n)/(n*d)` otherwise. -/
def fftfreqL (n : ℕ) (d : ℚ) : List ℚ :=
  (List.range n).map (fun (j : ℕ) =>
    (if j < (n+1)/2 then (j : ℚ) else (j : ℚ) - (n : ℚ)) / ((n : ℚ) * d))

/-- `np.fft.fftshift`: roll the array right by `len/2`, i.e. move the trailing
`len/2` entries to the front. -/
def fftshiftL {α : Type} (l : List α) : List α :=
  l.drop ((l.length + 1)/2) ++ l.take ((l.length + 1)/2)

/-- The `Signal.signal` dictionary.  Fields that a stage has not yet written are
present with an inert default; no claim considered depends on reading a field
before its producing stage (the Python `KeyError` for that misuse is not
modelled). -/
structure SignalRec where
  s : List ℚ := []
  s_name : String := ""
  s_unit : String := ""
  dt : ℚ := 0
  t : List ℚ := []
  s_original : List ℚ := []
  t_original : List ℚ := []
  w : List ℚ := []
  sw : List ℚ := []
  tw_actual : ℚ := 0
  swFT : List QC := []
  f : List ℚ := []
  df : ℚ := 0
  bw : ℚ := 0
  fOrder : ℕ := 50
  rh : List ℚ := []
  bp : List ℚ := []
  f0 : ℚ := 0
  swFTfilt : List QC := []
  td : ℚ := 0
  z : List QC := []
  theta : List ℚ := []
  a : List ℚ := []
  fit_time : List ℚ := []
  fit_freq : List ℚ := []

/-- `Signal.__init__`: store the samples, name, unit and time step, and derive
the time axis `t = dt*np.arange(0, len(s))`.  The constructor performs no
validation at all: any `dt` (including `dt <= 0`) and any sample list
(including the empty one) produce a record. -/
def signalInit (s : List ℚ) (s_name s_unit : String) (dt : ℚ) : SignalRec :=
  { s := s, s_name := s_name, s_unit := s_unit, dt := dt,
    t := (List.range s.length).map (fun (i : ℕ) => dt * (i : ℚ)) }

/-- `n2 = int(math.pow(2, int(math.floor(math.log(n, 2)))))`, in exact
arithmetic: the largest power of two not exceeding `n` (for `n >= 1`). -/
def binN2 (n : ℕ) : ℕ := 2 ^ Nat.log 2 n

/-- `n_start` of `Signal.binarate`: `0` in mode `"start"`, `(n-n2)/2` (Python 2
integer division, i.e. floor) in mode `"middle"`, `n - n2` in mode `"end"`, and
`0` for any other mode string. -/
def binStart (mode : String) (n : ℕ) : ℕ :=
  if mode = "middle" then (n - binN2 n)/2
  else if mode = "start" then 0
  else if mode = "end" then n - binN2 n
  else 0

/-- `n_stop` of `Signal.binarate`: `n_start + n2` in mode `"middle"`, `n2` in
mode `"start"`, `n` in mode `"end"` and for any other mode string. -/
def binStop (mode : String) (n : ℕ) : ℕ :=
  if mode = "middle" then (n - binN2 n)/2 + binN2 n
  else if mode = "start" then binN2 n
  else if mode = "end" then n
  else n

/-- `Signal.binarate`: snapshot `s`/`t` into `s_original`/`t_original`, then
truncate both `s` and `t` to the index window `[n_start, n_stop)` (the source
materialises `list(np.arange(n_start, n_stop))` and fancy-indexes; that is the
contiguous slice). -/
def binarate (mode : String) (r : SignalRec) : SignalRec :=
  { r with
    s_original := r.s, t_original := r.t,
    s := (r.s.drop (binStart mode r.s.length)).take
          (binStop mode r.s.length - binStart mode r.s.length),
    t := (r.t.drop (binStart mode r.s.length)).take
          (binStop mode r.s.length - binStart mode r.s.length) }

/-- `ww = int(math.ceil((1.0*tw)/(1.0*dt)))` of `Signal.window`; for the
nonnegative ratios the claims quantify over this is exactly `ceil(tw/dt)`. -/
def wWidth (tw dt : ℚ) : ℕ := (⌈tw / dt⌉).toNat

/-- The window envelope of `Signal.window`: rising half of `blackman(2*ww)`,
then `np.ones(n - 2*ww)`, then the trailing `ww` entries of `blackman(2*ww)`
(Python slice `[-ww:]`). -/
def windowEnv (blackman : ℕ → List ℚ) (ww n : ℕ) : List ℚ :=
  (blackman (2*ww)).take ww ++ List.replicate (n - 2*ww) (1:ℚ) ++
    pyLastSlice (blackman (2*ww)) ww

/-- The record produced by a successful `Signal.window` call: the envelope, the
windowed signal `sw = w*s` (elementwise product), and the actual rise time
`tw_actual = ww*dt`. -/
def windowOk (blackman : ℕ → List ℚ) (tw : ℚ) (r : SignalRec) : SignalRec :=
  { r with
    w := windowEnv blackman (wWidth tw r.dt) r.s.length,
    sw := List.zipWith (fun x y => x * y)
            (windowEnv blackman (wWidth tw r.dt) r.s.length) r.s,
    tw_actual := (wWidth tw r.dt : ℚ) * r.dt }

/-- Errors raised by the underlying numpy calls.  `Signal.window` raises a
`ValueError` from `np.ones(n - 2*ww)` exactly when `n - 2*ww < 0`; the record is
then left unmodified (the assignment is never reached). -/
inductive PyErr where
  | valueError
deriving DecidableEq

/-- `Signal.window`: fails (numpy `ValueError: negative dimensions`) iff
`2*ww > n`, otherwise writes the envelope, windowed signal and actual rise
time. -/
def window (blackman : ℕ → List ℚ) (tw : ℚ) (r : SignalRec) :
    Except PyErr SignalRec :=
  if 2 * wWidth tw r.dt ≤ r.s.length then .ok (windowOk blackman tw r)
  else .error .valueError

/-- `Signal.fft`: `swFT = fftshift(fft(sw))`, `f = fftshift(fftfreq(swFT.size,
d=dt))`, `df = f[1] - f[0]`.  The discrete Fourier transform itself is the
external kernel `dftF` (`np.fft.fft`); it preserves length. -/
def fftStage (dftF : List ℚ → List QC) (r : SignalRec) : SignalRec :=
  { r with
    swFT := fftshiftL (dftF r.sw),
    f := fftshiftL (fftfreqL (fftshiftL (dftF r.sw)).length r.dt),
    df := (fftshiftL (fftfreqL (fftshiftL (dftF r.sw)).length r.dt)).getD 1 0
          - (fftshiftL (fftfreqL (fftshiftL (dftF r.sw)).length r.dt)).getD 0 0 }

/-- The right-hand filter of `Signal.filter`: with `f_shifted = f - df/2`,
`rh = (abs(f_shifted) + f_shifted)/abs(f_shifted)`. -/
def rhList (f : List ℚ) (df : ℚ) : List ℚ :=
  f.map (fun x => (|x - df/2| + (x - df/2)) / |x - df/2|)

/-- `swFTrh = rh * swFT`: the right-hand spectrum. -/
def swFTrhOf (r : SignalRec) : List QC :=
  List.zipWith scaleQC (rhList r.f r.df) r.swFT

/-- `f0 = f[np.argmax(abs(swFTrh))]`: the peak carrier-frequency estimate. -/
def filterF0 (r : SignalRec) : ℚ :=
  r.f.getD (argmaxQ ((swFTrhOf r).map normSq)) 0

/-- The bandpass filter of `Signal.filter`:
`bp = 1/(1 + abs((f - f0)/bw)**order)`. -/
def bpList (f : List ℚ) (f0 bw : ℚ) (ord : ℕ) : List ℚ :=
  f.map (fun x => 1 / (1 + |(x - f0)/bw| ^ ord))

/-- `Signal.filter`: store the parameters, the right-hand filter, the peak
estimate `f0`, the bandpass filter, the filtered spectrum
`swFTfilt = swFTrh * bp`, and the delay time `td = 1.25/bw`.  There is no
failure path: on an identically zero right-hand spectrum `np.argmax` simply
returns index `0`.  The method-of-moments refinement
`f00 = (f*abs(swFTfilt)).sum()/abs(swFTfilt).sum()` involves the irrational
magnitudes of the complex spectrum and is a plain float expression that cannot
raise (on an all-zero spectrum it is an IEEE `0.0/0.0 = nan` with a runtime
warning, not an exception); no claim concerns its value and it is not modelled
further. -/
def filterStage (bw : ℚ) (ord : ℕ) (r : SignalRec) : SignalRec :=
  { r with
    bw := bw, fOrder := ord,
    rh := rhList r.f r.df,
    f0 := filterF0 r,
    bp := bpList r.f (filterF0 r) bw ord,
    swFTfilt := List.zipWith scaleQC (bpList r.f (filterF0 r) bw ord)
                  (swFTrhOf r),
    td := (5/4) / bw }

/-- `Signal.ifft`: `z = ifft(fftshift(swFTfilt))` (the source un-centers with
`fftshift` again, which for even lengths is its own inverse),
`theta = unwrap(angle(z))/(2*pi)`, `a = abs(z)`.  The inverse transform, the
unwrapped phase in cycles, and the magnitude are the external kernels `idftF`,
`angF`, `magF`; each preserves length. -/
def ifftStage (idftF : List QC → List QC) (angF magF : List QC → List ℚ)
    (r : SignalRec) : SignalRec :=
  { r with
    z := idftF (fftshiftL r.swFTfilt),
    theta := angF (idftF (fftshiftL r.swFTfilt)),
    a := magF (idftF (fftshiftL r.swFTfilt)) }

/-- `Signal.trim`: `id = int(td/dt)`, then slice `z`, `theta`, `a` and `t` with
`[id:-id]`.  The sample array `s` is not touched.  (A negative `id`, possible
only for a negative `td` or `dt`, is outside every claim and not modelled.) -/
def trimStage (r : SignalRec) : SignalRec :=
  { r with
    z := pyTrimSlice r.z (pyInt (r.td / r.dt)).toNat,
    theta := pyTrimSlice r.theta (pyInt (r.td / r.dt)).toNat,
    a := pyTrimSlice r.a (pyInt (r.td / r.dt)).toNat,
    t := pyTrimSlice r.t (pyInt (r.td / r.dt)).toNat }

/-- Row `i` of the `reshape((n_tot_chunk, n_per_chunk))` of a flat array:
elements `[i*npc, (i+1)*npc)`. -/
def chunkOf (l : List ℚ) (npc i : ℕ) : List ℚ := (l.drop (i*npc)).take npc

/-- Subtract the first entry of a chunk from every entry (the source builds the
broadcast `s_sub - s_sub[:, 0] * np.ones(n_per_chunk)`). -/
def resetList (c : List ℚ) : List ℚ := c.map (fun x => x - c.headD 0)

/-- `n_per_chunk = int(round(dt_chunk_target/dt))` of `Signal.fit`. -/
def fitNpc (tgt : ℚ) (r : SignalRec) : ℕ := (pyRound (tgt / r.dt)).toNat

/-- `n_tot_chunk = int(round(theta.size/n_per_chunk))` of `Signal.fit`.  In
Python 2 `theta.size/n_per_chunk` is integer division, so the `round` is the
identity: this is the floor of the quotient. -/
def fitNtc (tgt : ℚ) (r : SignalRec) : ℕ := r.theta.length / fitNpc tgt r

/-- `n_total = n_per_chunk*n_tot_chunk`: the number of leading phase samples
that participate in the fit. -/
def fitNTotal (tgt : ℚ) (r : SignalRec) : ℕ := fitNpc tgt r * fitNtc tgt r

/-- `SX = dt*0.50*(n_per_chunk-1)*n_per_chunk`: the analytic sum of the reset
chunk times. -/
def fitSX (dt : ℚ) (npc : ℕ) : ℚ := dt * (1/2) * ((npc : ℚ) - 1) * (npc : ℚ)

/-- `SXX = dt**2*(1/6.0)*n_per_chunk*(n_per_chunk-1)*(2*n_per_chunk-1)`: the
analytic sum of the squared reset chunk times. -/
def fitSXX (dt : ℚ) (npc : ℕ) : ℚ :=
  dt^2 * (1/6) * (npc : ℚ) * ((npc : ℚ) - 1) * (2*(npc : ℚ) - 1)

/-- Chunk `i` of the phase data after the reset to zero at the chunk start:
row `i` of `s_sub_reset`. -/
def fitSChunk (tgt : ℚ) (r : SignalRec) (i : ℕ) : List ℚ :=
  resetList (chunkOf (r.theta.take (fitNTotal tgt r)) (fitNpc tgt r) i)

/-- Chunk `i` of the time data after the reset to zero at the chunk start:
row `i` of `t_sub_reset`. -/
def fitTChunk (tgt : ℚ) (r : SignalRec) (i : ℕ) : List ℚ :=
  resetList (chunkOf (r.t.take (fitNTotal tgt r)) (fitNpc tgt r) i)

/-- `SY = np.sum(s_sub_reset, axis=1)`, entry `i`. -/
def fitSY (tgt : ℚ) (r : SignalRec) (i : ℕ) : ℚ := (fitSChunk tgt r i).sum

/-- `SXY = np.sum(t_sub_reset*s_sub_reset, axis=1)`, entry `i`. -/
def fitSXY (tgt : ℚ) (r : SignalRec) (i : ℕ) : ℚ :=
  (List.zipWith (fun x y => x * y) (fitTChunk tgt r i) (fitSChunk tgt r i)).sum

/-- `slope = (n_per_chunk*SXY - SX*SY)/(n_per_chunk*SXX - SX*SX)`, entry `i`. -/
def fitSlope (tgt : ℚ) (r : SignalRec) (i : ℕ) : ℚ :=
  ((fitNpc tgt r : ℚ) * fitSXY tgt r i - fitSX r.dt (fitNpc tgt r) * fitSY tgt r i)
    / ((fitNpc tgt r : ℚ) * fitSXX r.dt (fitNpc tgt r)
        - fitSX r.dt (fitNpc tgt r) * fitSX r.dt (fitNpc tgt r))

/-- `Signal.fit`: `fit_freq` is the per-chunk best-fit slope, `fit_time` is
`t_sub[:, 0]`, the (absolute, pre-reset) time of each chunk's first sample. -/
def fitStage (tgt : ℚ) (r : SignalRec) : SignalRec :=
  { r with
    fit_freq := (List.range (fitNtc tgt r)).map (fitSlope tgt r),
    fit_time := (List.range (fitNtc tgt r)).map
      (fun i => (chunkOf (r.t.take (fitNTotal tgt r)) (fitNpc tgt r) i).headD 0) }

/-- The pipeline from construction through the inverse transform, with the
window stage entered through its success branch (`windowOk`): ingest, binarate,
window, fft, filter, ifft. -/
def chainToIfft (dftF : List ℚ → List QC) (idftF : List QC → List QC)
    (angF magF : List QC → List ℚ) (bl : ℕ → List ℚ) (mode : String)
    (tw bw : ℚ) (ord : ℕ) (s0 : List ℚ) (nm un : String) (dt : ℚ) : SignalRec :=
  ifftStage idftF angF magF
    (filterStage bw ord
      (fftStage dftF
        (windowOk bl tw
          (binarate mode (signalInit s0 nm un dt)))))

/-! Concrete inputs used to evaluate the embedded stages.  The kernel
stand-ins below replace the external numpy transforms in concrete runs; like
`np.fft.fft`, `np.fft.ifft`, `np.unwrap(np.angle(.))/(2*pi)` and `abs`, each
preserves the length of its input array, which is the only property of the
kernels any length statement depends on. -/

/-- Length-preserving stand-in for `np.fft.fft` on a real array. -/
def cxDft : List ℚ → List QC := fun l => l.map (fun x => (x, 0))

/-- Length-preserving stand-in for `np.fft.ifft`. -/
def cxIdft : List QC → List QC := fun l => l

/-- Length-preserving stand-in for an elementwise complex-to-real kernel
(`unwrap(angle(.))/(2*pi)` or `abs`). -/
def cxRe : List QC → List ℚ := fun l => l.map Prod.fst

/-- Length-`M` stand-in for `scipy.blackman(M)` (its only property used by the
length claims). -/
def cxBlackman : ℕ → List ℚ := fun M => List.replicate M 0

/-- A record as produced by the pipeline just before `Signal.fit`: an
11-sample phase trace with its time axis, `dt = 1`. -/
def rc2 : SignalRec :=
  { dt := 1, theta := [0,1,2,3,4,5,6,7,8,9,10], t := [0,1,2,3,4,5,6,7,8,9,10] }

/-- A record as produced by the pipeline just before `Signal.trim`: eight
samples of every trimmed array, `dt = 1`, and `td = 13/5` (reachable via
`bw = 1.25/2.6`), so that `td/dt = 2.6` separates truncation from rounding. -/
def rc3 : SignalRec :=
  { dt := 1, td := 13/5,
    z := [((0:ℚ),(0:ℚ)),(1,0),(2,0),(3,0),(4,0),(5,0),(6,0),(7,0)],
    theta := [0,1,2,3,4,5,6,7], a := [0,1,2,3,4,5,6,7],
    t := [0,1,2,3,4,5,6,7] }

/-- A record as produced by `Signal.fft` on the DC-only input
`s = [1,1,1,1]`, `dt = 1` (with a trivial window): `swFT =
fftshift(fft([1,1,1,1])) = [0,0,4,0]`, whose right-hand spectrum is
identically zero. -/
def rc6 : SignalRec :=
  { dt := 1, sw := [1,1,1,1],
    f := fftshiftL (fftfreqL 4 1), df := 1/4,
    swFT := [((0:ℚ),(0:ℚ)),(0,0),(4,0),(0,0)] }

/-- A record entering `Signal.fit`: four phase samples growing by two cycles
per unit time over the axis `t = [0,1,2,3]`, `dt = 1`. -/
def rcW : SignalRec :=
  { dt := 1, theta := [0,2,4,6], t := [0,1,2,3] }

/-- A freshly ingested five-sample record (`n = 5` is not a power of two). -/
def rc4 : SignalRec :=
  { s := [1,2,3,4,5], t := [0,1,2,3,4], dt := 1 }

/-- A four-sample record entering `Signal.window` with `dt = 1`. -/
def rc8 : SignalRec :=
  { dt := 1, s := [1,1,1,1], t := [0,1,2,3] }

/-- A record entering `Signal.trim` with `td/dt = 1/2`, so that
`int(td/dt) = 0`. -/
def rc10 : SignalRec :=
  { dt := 1, td := 1/2, z := [((1:ℚ),(0:ℚ))], theta := [1], a := [1], t := [0] }

/-- The full pipeline (ingest, binarate, window, fft, filter, ifft, trim) run
on the five-sample input `[0,1,2,3,4]` with `dt = 1`, mode `"middle"`, a
trivial window (`tw = 0`), `bw = 5/4` (so `td = 1` and the trim index is `1`),
using the length-preserving kernel stand-ins. -/
def rc5 : SignalRec :=
  trimStage (chainToIfft cxDft cxIdft cxRe cxRe cxBlackman "middle" 0 (5/4) 50
    [0,1,2,3,4] "x" "nm" 1)

/-! General list lemmas used to relate the array-slicing embedding to the
per-index statements of the claims. -/

theorem getD_map_range {α : Type} (g : ℕ → α) (d : α) {n k : ℕ} (h : k < n) :
    ((List.range n).map g).getD k d = g k := by
  simp [List.getD_eq_getElem?_getD, List.getElem?_map, List.getElem?_range, h]

theorem sum_map_range (g : ℕ → ℚ) (n : ℕ) :
    ((List.range n).map g).sum = ∑ j ∈ Finset.range n, g j := by
  induction n with
  | zero => simp
  | succ m ih => rw [List.range_succ]; simp [Finset.sum_range_succ, ih]

theorem zipWith_map_same {α : Type} (f : ℚ → ℚ → ℚ) (g h : α → ℚ) (l : List α) :
    List.zipWith f (l.map g) (l.map h) = l.map (fun x => f (g x) (h x)) := by
  induction l with
  | nil => rfl
  | cons a as ih => simp only [List.map_cons, List.zipWith_cons_cons, ih]

theorem headD_eq_getD {α : Type} (l : List α) (d : α) : l.headD d = l.getD 0 d := by
  cases l <;> rfl

theorem getD_drop_any {α : Type} (l : List α) (d : α) (i j : ℕ) :
    (l.drop i).getD j d = l.getD (i + j) d := by
  simp [List.getD_eq_getElem?_getD, List.getElem?_drop]

theorem getD_take_lt {α : Type} (l : List α) (d : α) {i j : ℕ} (h : j < i) :
    (l.take i).getD j d = l.getD j d := by
  simp [List.getD_eq_getElem?_getD, List.getElem?_take_of_lt h]

theorem getD_append_left {α : Type} (l₁ l₂ : List α) (d : α) {j : ℕ}
    (h : j < l₁.length) : (l₁ ++ l₂).getD j d = l₁.getD j d := by
  simp [List.getD_eq_getElem?_getD, List.getElem?_append_left h]

theorem getD_append_right {α : Type} (l₁ l₂ : List α) (d : α) {j : ℕ}
    (h : l₁.length ≤ j) : (l₁ ++ l₂).getD j d = l₂.getD (j - l₁.length) d := by
  simp [List.getD_eq_getElem?_getD, List.getElem?_append_right h]

theorem getD_map_lt {α β : Type} (fn : α → β) (l : List α) (da : α) (db : β)
    {k : ℕ} (h : k < l.length) : (l.map fn).getD k db = fn (l.getD k da) := by
  simp [List.getD_eq_getElem?_getD, List.getElem?_map, List.getElem?_eq_getElem h,
    List.getD_eq_getElem l da h]

theorem chunk_take_repr (l : List ℚ) (npc ntc i : ℕ) (hi : i < ntc)
    (hlen : npc * ntc ≤ l.length) :
    chunkOf (l.take (npc * ntc)) npc i
      = (List.range npc).map (fun j => l.getD (i*npc + j) 0) := by
  have hib : i*npc + npc ≤ npc * ntc := by
    have h1 : (i+1) * npc ≤ ntc * npc := Nat.mul_le_mul_right npc hi
    calc i*npc + npc = (i+1) * npc := by ring
    _ ≤ ntc * npc := h1
    _ = npc * ntc := Nat.mul_comm _ _
  have hTlen : (l.take (npc*ntc)).length = npc*ntc := by
    simp [List.length_take]; omega
  apply List.ext_getElem
  · simp [chunkOf, List.length_take, List.length_drop]; omega
  · intro j hj₁ hj₂
    have hjn : j < npc := by
      have hc := hj₁
      simp [chunkOf, List.length_take, List.length_drop] at hc
      exact hc.1
    have hidx : i*npc + j < npc*ntc := by omega
    have hidx' : i*npc + j < l.length := by omega
    simp only [chunkOf, List.getElem_take, List.getElem_drop, List.getElem_map,
      List.getElem_range]
    rw [List.getD_eq_getElem l 0 hidx']

theorem resetList_map_range (g : ℕ → ℚ) {npc : ℕ} (h : 0 < npc) :
    resetList ((List.range npc).map g) = (List.range npc).map (fun j => g j - g 0) := by
  unfold resetList
  rw [headD_eq_getD, getD_map_range g 0 h, List.map_map]
  rfl

theorem pyTrimSlice_length {α : Type} (l : List α) (i : ℕ) :
    (pyTrimSlice l i).length = if i = 0 then 0 else l.length - 2*i := by
  unfold pyTrimSlice
  split
  · simp
  · simp [List.length_take, List.length_drop]; omega

theorem trim_decomp {α : Type} (l : List α) (i : ℕ) (h1 : 1 ≤ i)
    (h2 : 2*i ≤ l.length) :
    l.take i ++ pyTrimSlice l i ++ l.drop (l.length - i) = l := by
  have hi0 : i ≠ 0 := by omega
  have e1 : l.length - i - i = l.length - 2*i := by omega
  have hA : (l.take (l.length - i)).drop i = (l.drop i).take (l.length - 2*i) := by
    rw [List.drop_take, e1]
  have hB : l.take i = (l.take (l.length - i)).take i := by
    rw [List.take_take, min_eq_left (by omega)]
  unfold pyTrimSlice
  rw [if_neg hi0, ← hA, hB, List.take_append_drop, List.take_append_drop]

theorem argmaxAux_no_update (xs : List ℚ) (bv : ℚ) (h : ∀ x ∈ xs, ¬ bv < x) :
    ∀ (i best : ℕ), argmaxAux xs i best bv = best := by
  induction xs with
  | nil => intro i best; rfl
  | cons y ys ih =>
    intro i best
    have hy : ¬ bv < y := h y (by simp)
    have h' : ∀ x ∈ ys, ¬ bv < x := fun x hx => h x (by simp [hx])
    simp only [argmaxAux, if_neg hy]
    exact ih h' (i+1) best

theorem argmaxQ_all_zero (l : List ℚ) (h : ∀ x ∈ l, x = 0) : argmaxQ l = 0 := by
  cases l with
  | nil => rfl
  | cons x xs =>
    have h' : ∀ y ∈ xs, ¬ x < y := by
      intro y hy
      rw [h y (by simp [hy]), h x (by simp)]
      exact lt_irrefl 0
    simp only [argmaxQ]
    exact argmaxAux_no_update xs x h' 1 0

theorem sum_range_cast (n : ℕ) :
    ∑ j ∈ Finset.range n, (j : ℚ) = (n : ℚ) * ((n : ℚ) - 1) / 2 := by
  induction n with
  | zero => simp
  | succ m ih => rw [Finset.sum_range_succ, ih]; push_cast; ring

theorem sum_range_sq_cast (n : ℕ) :
    ∑ j ∈ Finset.range n, ((j : ℚ))^2
      = (n : ℚ) * ((n : ℚ) - 1) * (2*(n : ℚ) - 1) / 6 := by
  induction n with
  | zero => simp
  | succ m ih => rw [Finset.sum_range_succ, ih]; push_cast; ring

theorem fftfreqL_length (n : ℕ) (d : ℚ) : (fftfreqL n d).length = n := by
  simp [fftfreqL]

theorem fftshiftL_length {α : Type} (l : List α) : (fftshiftL l).length = l.length := by
  simp [fftshiftL, List.length_take, List.length_drop]
  omega

theorem centered_axis_getD (m : ℕ) (d : ℚ) (hm : 0 < m) {k : ℕ} (hk : k < 2*m) :
    (fftshiftL (fftfreqL (2*m) d)).getD k 0
      = ((k : ℚ) - (m : ℚ)) / ((2*(m : ℚ)) * d) := by
  have hlen : (fftfreqL (2*m) d).length = 2*m := fftfreqL_length _ _
  have hh : ((fftfreqL (2*m) d).length + 1)/2 = m := by rw [hlen]; omega
  have hhalf : (2*m+1)/2 = m := by omega
  unfold fftshiftL
  rw [hh]
  by_cases hkm : k < m
  · have hdl : k < ((fftfreqL (2*m) d).drop m).length := by
      rw [List.length_drop, hlen]; omega
    rw [getD_append_left _ _ _ hdl, getD_drop_any]
    unfold fftfreqL
    rw [getD_map_range _ _ (by omega : m + k < 2*m)]
    rw [if_neg (by omega : ¬ m + k < (2*m+1)/2)]
    push_cast
    ring_nf
  · have hge : ((fftfreqL (2*m) d).drop m).length ≤ k := by
      rw [List.length_drop, hlen]; omega
    rw [getD_append_right _ _ _ hge]
    rw [List.length_drop, hlen]
    have hkm' : k - (2*m - m) < m := by omega
    rw [getD_take_lt _ _ hkm']
    unfold fftfreqL
    rw [getD_map_range _ _ (by omega : k - (2*m - m) < 2*m)]
    rw [if_pos (by omega : k - (2*m - m) < (2*m+1)/2)]
    have e2 : k - (2*m - m) = k - m := by omega
    have e3 : ((k - m : ℕ) : ℚ) = (k : ℚ) - (m : ℚ) :=
      Nat.cast_sub (by omega : m ≤ k)
    rw [e2, e3]
    push_cast
    ring_nf

/-! Claim theorems. -/

/-- C7 (counterexample): the constructor performs no validation.  On the empty
sample list with `dt = -1 <= 0`, and on a nonempty list with `dt = 0`, a record
is produced (the constructor is a total function: there is no failure path in
the source), with the usual derived time axis, rather than an `InvalidInput`
failure. -/
theorem init_validation_cex :
    (signalInit [] "x" "nm" (-1)).t = [] ∧
    (signalInit [] "x" "nm" (-1)).dt = -1 ∧
    (signalInit [] "x" "nm" (-1)).s = [] ∧
    (signalInit [0] "x" "nm" 0).t = [0] := by
  refine ⟨rfl, rfl, rfl, ?_⟩
  norm_num [signalInit, List.range_succ]

/-- C7 (amended): for every construction input, including `dt <= 0` and empty
sample sequences, ingest produces a record with `time = dt * [0..n)` (no
validation is performed and no failure is signalled). -/
theorem init_time_axis_amended (s : List ℚ) (nm un : String) (dt : ℚ) (i : ℕ)
    (h : i < s.length) :
    (signalInit s nm un dt).t.getD i 0 = dt * (i : ℚ) ∧
    (signalInit s nm un dt).t.length = s.length ∧
    (signalInit s nm un dt).s = s := by
  refine ⟨?_, ?_, rfl⟩
  · simp only [signalInit]
    exact getD_map_range _ _ h
  · simp only [signalInit]
    rw [List.length_map, List.length_range]

/-- C7 (witness): the amended statement applied to the two-sample list with
the invalid time step `dt = -2`. -/
theorem init_time_axis_amended_witness :
    (signalInit [5, 6] "x" "nm" (-2)).t.getD 1 0 = (-2) * ((1:ℕ) : ℚ) ∧
    (signalInit [5, 6] "x" "nm" (-2)).t.length = ([5, 6] : List ℚ).length ∧
    (signalInit [5, 6] "x" "nm" (-2)).s = [5, 6] :=
  init_time_axis_amended [5, 6] "x" "nm" (-2) 1 (by decide)

/-- C10: when `int(settlingTime/dt) = 0`, trim replaces `analyticSignal`,
`phase`, `amplitude` and `time` with empty arrays, because the Python slice
`[0:-0]` selects nothing. -/
theorem trim_zero_idx_empty (r : SignalRec) (h : pyInt (r.td / r.dt) = 0) :
    (trimStage r).z = [] ∧ (trimStage r).theta = [] ∧
    (trimStage r).a = [] ∧ (trimStage r).t = [] := by
  simp [trimStage, h, pyTrimSlice]

/-- C10 (witness): on a record with `td = 1/2`, `dt = 1` (so
`settlingTime < dt`), every trimmed array comes back empty. -/
theorem trim_zero_idx_empty_witness :
    pyInt (rc10.td / rc10.dt) = 0 ∧
    ((trimStage rc10).z = [] ∧ (trimStage rc10).theta = [] ∧
     (trimStage rc10).a = [] ∧ (trimStage rc10).t = []) :=
  ⟨by norm_num [pyInt, rc10], trim_zero_idx_empty rc10 (by norm_num [pyInt, rc10])⟩

/-- C3 (counterexample): with `settlingTime/dt = 13/5 = 2.6` on arrays of
length 8, trim removes `int(2.6) = 2` samples from each end (yielding
`[2,3,4,5]`), not `round(2.6) = 3` as the claim states (which would yield
`[3,4]`). -/
theorem trim_round_cex :
    (trimStage rc3).t = ([2,3,4,5] : List ℚ) ∧
    pyRound (rc3.td / rc3.dt) = 3 ∧
    (rc3.t.drop 3).take (rc3.t.length - 2*3) = ([3,4] : List ℚ) ∧
    (trimStage rc3).t ≠ ([3,4] : List ℚ) := by
  have hidn : pyInt (rc3.td / rc3.dt) = 2 := by norm_num [pyInt, rc3]
  have ht : (trimStage rc3).t = ([2,3,4,5] : List ℚ) := by
    show pyTrimSlice rc3.t (pyInt (rc3.td / rc3.dt)).toNat = _
    rw [hidn]
    decide
  refine ⟨ht, by norm_num [pyRound, rc3], by decide, ?_⟩
  rw [ht]
  decide

/-- C3 (amended): trim removes exactly `idx = int(settlingTime/dt)` samples
(integer truncation, not rounding) from both the start and the end of each of
`analyticSignal`, `phase`, `amplitude` and `time`, in place, provided
`idx >= 1` and `2*idx` does not exceed the arrays' length (for `idx = 0` the
arrays are emptied instead; see the C10 theorem). -/
theorem trim_truncation_amended (r : SignalRec)
    (h1 : 1 ≤ pyInt (r.td / r.dt))
    (hzl : 2 * (pyInt (r.td / r.dt)).toNat ≤ r.z.length)
    (hth : r.theta.length = r.z.length)
    (ha : r.a.length = r.z.length)
    (ht : r.t.length = r.z.length) :
    (r.z.take (pyInt (r.td / r.dt)).toNat ++ (trimStage r).z
        ++ r.z.drop (r.z.length - (pyInt (r.td / r.dt)).toNat) = r.z) ∧
    (r.theta.take (pyInt (r.td / r.dt)).toNat ++ (trimStage r).theta
        ++ r.theta.drop (r.theta.length - (pyInt (r.td / r.dt)).toNat) = r.theta) ∧
    (r.a.take (pyInt (r.td / r.dt)).toNat ++ (trimStage r).a
        ++ r.a.drop (r.a.length - (pyInt (r.td / r.dt)).toNat) = r.a) ∧
    (r.t.take (pyInt (r.td / r.dt)).toNat ++ (trimStage r).t
        ++ r.t.drop (r.t.length - (pyInt (r.td / r.dt)).toNat) = r.t) ∧
    (trimStage r).z.length = r.z.length - 2 * (pyInt (r.td / r.dt)).toNat ∧
    (trimStage r).theta.length = r.theta.length - 2 * (pyInt (r.td / r.dt)).toNat ∧
    (trimStage r).a.length = r.a.length - 2 * (pyInt (r.td / r.dt)).toNat ∧
    (trimStage r).t.length = r.t.length - 2 * (pyInt (r.td / r.dt)).toNat := by
  have hi1 : 1 ≤ (pyInt (r.td / r.dt)).toNat := by omega
  have hi0 : (pyInt (r.td / r.dt)).toNat ≠ 0 := by omega
  refine ⟨trim_decomp r.z _ hi1 hzl,
          trim_decomp r.theta _ hi1 (by omega),
          trim_decomp r.a _ hi1 (by omega),
          trim_decomp r.t _ hi1 (by omega),
          ?_, ?_, ?_, ?_⟩ <;>
    simp [trimStage, pyTrimSlice_length, hi0]

/-- C3 (witness): the amended statement applied to the record `rc3`
(`td/dt = 2.6`, arrays of length 8): the original arrays decompose as two
samples, the trimmed middle, and two samples. -/
theorem trim_truncation_amended_witness :
    (rc3.z.take (pyInt (rc3.td / rc3.dt)).toNat ++ (trimStage rc3).z
        ++ rc3.z.drop (rc3.z.length - (pyInt (rc3.td / rc3.dt)).toNat) = rc3.z) ∧
    (trimStage rc3).t.length = rc3.t.length - 2 * (pyInt (rc3.td / rc3.dt)).toNat := by
  have hidn : pyInt (rc3.td / rc3.dt) = 2 := by norm_num [pyInt, rc3]
  have h := trim_truncation_amended rc3 (by rw [hidn]; decide) (by rw [hidn]; decide)
    (by decide) (by decide) (by decide)
  exact ⟨h.1, h.2.2.2.2.2.2.2⟩

/-- C2 (counterexample): on an 11-sample phase trace with `dt = 1` and
`dtChunkTarget = 4`, the code computes `samplesPerChunk = 4` but (Python 2
integer division) `numChunks = 11 // 4 = 2`, whereas the claim's
`numChunks = round(11/4) = round(2.75) = 3`. -/
theorem fit_chunk_count_cex :
    rc2.theta.length = 11 ∧
    fitNpc 4 rc2 = 4 ∧
    (fitStage 4 rc2).fit_freq.length = 2 ∧
    pyRound ((11 : ℚ) / 4) = 3 := by
  have hnpc : fitNpc 4 rc2 = 4 := by
    have h4 : pyRound ((4:ℚ) / rc2.dt) = 4 := by norm_num [pyRound, rc2]
    show (pyRound ((4:ℚ) / rc2.dt)).toNat = 4
    rw [h4]
    decide
  have hntc : fitNtc 4 rc2 = 2 := by
    show rc2.theta.length / fitNpc 4 rc2 = 2
    rw [hnpc]
    decide
  refine ⟨by decide, hnpc, ?_, by norm_num [pyRound]⟩
  show ((List.range (fitNtc 4 rc2)).map (fitSlope 4 rc2)).length = 2
  rw [List.length_map, List.length_range, hntc]

/-- C2 (amended): fit selects `samplesPerChunk = round(dtChunkTarget/dt)`
(Python 2 rounding, half away from zero) but `numChunks =
floor(len(phase)/samplesPerChunk)` — Python 2 integer division, not rounding of
the real quotient — and exactly the first `numChunks*samplesPerChunk` phase
(and time) samples participate in the fit, any remainder being silently
dropped: two phase/time arrays of the same length agreeing on those leading
samples give identical `fitTime` and `fitFrequency`. -/
theorem fit_chunk_count_amended (r : SignalRec) (tgt : ℚ)
    (h1 : 1 ≤ pyRound (tgt / r.dt)) :
    ((fitNpc tgt r : ℤ) = pyRound (tgt / r.dt)) ∧
    fitNtc tgt r = r.theta.length / fitNpc tgt r ∧
    (fitStage tgt r).fit_freq.length = fitNtc tgt r ∧
    (fitStage tgt r).fit_time.length = fitNtc tgt r ∧
    (∀ th2 t2 : List ℚ, th2.length = r.theta.length →
      th2.take (fitNTotal tgt r) = r.theta.take (fitNTotal tgt r) →
      t2.take (fitNTotal tgt r) = r.t.take (fitNTotal tgt r) →
      (fitStage tgt { r with theta := th2, t := t2 }).fit_freq
          = (fitStage tgt r).fit_freq ∧
      (fitStage tgt { r with theta := th2, t := t2 }).fit_time
          = (fitStage tgt r).fit_time) := by
  refine ⟨Int.toNat_of_nonneg (by omega), rfl, ?_, ?_, ?_⟩
  · show ((List.range (fitNtc tgt r)).map (fitSlope tgt r)).length = fitNtc tgt r
    rw [List.length_map, List.length_range]
  · show ((List.range (fitNtc tgt r)).map _).length = fitNtc tgt r
    rw [List.length_map, List.length_range]
  · intro th2 t2 hl hth htt
    have hnpc : fitNpc tgt { r with theta := th2, t := t2 } = fitNpc tgt r := rfl
    have hnt : fitNtc tgt { r with theta := th2, t := t2 } = fitNtc tgt r := by
      show th2.length / fitNpc tgt { r with theta := th2, t := t2 } = _
      rw [hnpc, hl]
      rfl
    have hntot : fitNTotal tgt { r with theta := th2, t := t2 } = fitNTotal tgt r := by
      show fitNpc tgt _ * fitNtc tgt _ = _
      rw [hnpc, hnt]
      rfl
    have hth2 : ({ r with theta := th2, t := t2 } : SignalRec).theta.take
        (fitNTotal tgt { r with theta := th2, t := t2 })
        = r.theta.take (fitNTotal tgt r) := by
      rw [hntot]
      exact hth
    have htt2 : ({ r with theta := th2, t := t2 } : SignalRec).t.take
        (fitNTotal tgt { r with theta := th2, t := t2 })
        = r.t.take (fitNTotal tgt r) := by
      rw [hntot]
      exact htt
    constructor
    · show (List.range (fitNtc tgt _)).map (fitSlope tgt _)
          = (List.range (fitNtc tgt r)).map (fitSlope tgt r)
      rw [hnt]
      congr 1
      funext i
      simp only [fitSlope, fitSXY, fitSY, fitSChunk, fitTChunk, hnpc, hntot, hth2, htt2,
        hth, htt]
    · show (List.range (fitNtc tgt _)).map _ = (List.range (fitNtc tgt r)).map _
      rw [hnt]
      congr 1
      funext i
      rw [hnpc, htt2]

/-- C2 (witness): on the 11-sample record `rc2` with `dtChunkTarget = 4`,
changing the three dropped trailing phase/time samples does not change the fit
output, and `samplesPerChunk` agrees with the Python 2 rounding. -/
theorem fit_chunk_count_amended_witness :
    ((fitNpc 4 rc2 : ℤ) = pyRound ((4:ℚ) / rc2.dt)) ∧
    (fitStage 4 { rc2 with theta := [0,1,2,3,4,5,6,7,100,200,300],
                           t := [0,1,2,3,4,5,6,7,50,60,70] }).fit_freq
      = (fitStage 4 rc2).fit_freq := by
  have h4 : pyRound ((4:ℚ) / rc2.dt) = 4 := by norm_num [pyRound, rc2]
  have h1 : (1:ℤ) ≤ pyRound ((4:ℚ) / rc2.dt) := by rw [h4]; decide
  have hnpc : fitNpc 4 rc2 = 4 := by
    show (pyRound ((4:ℚ) / rc2.dt)).toNat = 4
    rw [h4]
    decide
  have hntot : fitNTotal 4 rc2 = 8 := by
    show fitNpc 4 rc2 * (rc2.theta.length / fitNpc 4 rc2) = 8
    rw [hnpc]
    decide
  have h := fit_chunk_count_amended rc2 4 h1
  refine ⟨h.1, ?_⟩
  refine (h.2.2.2.2 [0,1,2,3,4,5,6,7,100,200,300] [0,1,2,3,4,5,6,7,50,60,70]
    (by decide) ?_ ?_).1
  · rw [hntot]
    decide
  · rw [hntot]
    decide

/-- C4: binarate truncates `samples` and `time` to length `n2 =
2^floor(log2(n))`: mode `start` keeps indices `[0, n2)`, mode `end` keeps
`[n-n2, n)`, mode `middle` keeps the contiguous block starting at
`floor((n-n2)/2)`; the pre-truncation arrays are snapshotted into
`originalSamples`/`originalTime` (for every mode); and when `n` is already a
power of two the three modes leave `samples` and `time` unchanged. -/
theorem binarate_spec (r : SignalRec) (hn : 1 ≤ r.s.length)
    (ht : r.t.length = r.s.length) :
    ((binarate "start" r).s = r.s.take (binN2 r.s.length) ∧
     (binarate "start" r).t = r.t.take (binN2 r.s.length)) ∧
    ((binarate "end" r).s = r.s.drop (r.s.length - binN2 r.s.length) ∧
     (binarate "end" r).t = r.t.drop (r.s.length - binN2 r.s.length)) ∧
    ((binarate "middle" r).s
        = (r.s.drop ((r.s.length - binN2 r.s.length)/2)).take (binN2 r.s.length) ∧
     (binarate "middle" r).t
        = (r.t.drop ((r.s.length - binN2 r.s.length)/2)).take (binN2 r.s.length)) ∧
    (∀ mode : String,
      (binarate mode r).s_original = r.s ∧ (binarate mode r).t_original = r.t) ∧
    (∀ mode : String, mode = "start" ∨ mode = "middle" ∨ mode = "end" →
      (binarate mode r).s.length = binN2 r.s.length ∧
      (binarate mode r).t.length = binN2 r.s.length) ∧
    (binN2 r.s.length = r.s.length →
      ∀ mode : String, mode = "start" ∨ mode = "middle" ∨ mode = "end" →
        (binarate mode r).s = r.s ∧ (binarate mode r).t = r.t) := by
  have hn2 : binN2 r.s.length ≤ r.s.length := Nat.pow_log_le_self 2 (by omega)
  have es1 : binStart "start" r.s.length = 0 := by
    unfold binStart
    rw [if_neg (by decide), if_pos rfl]
  have es2 : binStop "start" r.s.length = binN2 r.s.length := by
    unfold binStop
    rw [if_neg (by decide), if_pos rfl]
  have ee1 : binStart "end" r.s.length = r.s.length - binN2 r.s.length := by
    unfold binStart
    rw [if_neg (by decide), if_neg (by decide), if_pos rfl]
  have ee2 : binStop "end" r.s.length = r.s.length := by
    unfold binStop
    rw [if_neg (by decide), if_neg (by decide), if_pos rfl]
  have em1 : binStart "middle" r.s.length = (r.s.length - binN2 r.s.length)/2 := by
    unfold binStart
    rw [if_pos rfl]
  have em2 : binStop "middle" r.s.length
      = (r.s.length - binN2 r.s.length)/2 + binN2 r.s.length := by
    unfold binStop
    rw [if_pos rfl]
  refine ⟨⟨?_, ?_⟩, ⟨?_, ?_⟩, ⟨?_, ?_⟩, fun mode => ⟨rfl, rfl⟩, ?_, ?_⟩
  · show (r.s.drop _).take _ = _
    rw [es1, es2]
    simp
  · show (r.t.drop _).take _ = _
    rw [es1, es2]
    simp
  · show (r.s.drop _).take _ = _
    rw [ee1, ee2]
    exact List.take_of_length_le (by rw [List.length_drop])
  · show (r.t.drop _).take _ = _
    rw [ee1, ee2]
    exact List.take_of_length_le (by rw [List.length_drop, ht])
  · show (r.s.drop _).take _ = _
    rw [em1, em2]
    have e : (r.s.length - binN2 r.s.length)/2 + binN2 r.s.length
        - (r.s.length - binN2 r.s.length)/2 = binN2 r.s.length := by omega
    rw [e]
  · show (r.t.drop _).take _ = _
    rw [em1, em2]
    have e : (r.s.length - binN2 r.s.length)/2 + binN2 r.s.length
        - (r.s.length - binN2 r.s.length)/2 = binN2 r.s.length := by omega
    rw [e]
  · intro mode hm
    rcases hm with h | h | h <;> subst h
    · refine ⟨?_, ?_⟩
      · show ((r.s.drop (binStart "start" r.s.length)).take
            (binStop "start" r.s.length - binStart "start" r.s.length)).length = _
        rw [es1, es2]
        simp only [List.length_take, List.length_drop]
        omega
      · show ((r.t.drop (binStart "start" r.s.length)).take
            (binStop "start" r.s.length - binStart "start" r.s.length)).length = _
        rw [es1, es2]
        simp only [List.length_take, List.length_drop]
        omega
    · refine ⟨?_, ?_⟩
      · show ((r.s.drop (binStart "middle" r.s.length)).take
            (binStop "middle" r.s.length - binStart "middle" r.s.length)).length = _
        rw [em1, em2]
        simp only [List.length_take, List.length_drop]
        omega
      · show ((r.t.drop (binStart "middle" r.s.length)).take
            (binStop "middle" r.s.length - binStart "middle" r.s.length)).length = _
        rw [em1, em2]
        simp only [List.length_take, List.length_drop]
        omega
    · refine ⟨?_, ?_⟩
      · show ((r.s.drop (binStart "end" r.s.length)).take
            (binStop "end" r.s.length - binStart "end" r.s.length)).length = _
        rw [ee1, ee2]
        simp only [List.length_take, List.length_drop]
        omega
      · show ((r.t.drop (binStart "end" r.s.length)).take
            (binStop "end" r.s.length - binStart "end" r.s.length)).length = _
        rw [ee1, ee2]
        simp only [List.length_take, List.length_drop]
        omega
  · intro h2 mode hm
    rcases hm with h | h | h <;> subst h
    · constructor
      · show (r.s.drop _).take _ = _
        rw [es1, es2, h2]
        simp only [List.drop_zero, Nat.sub_zero]
        exact List.take_length r.s
      · show (r.t.drop _).take _ = _
        rw [es1, es2, h2, ← ht]
        simp only [List.drop_zero, Nat.sub_zero]
        exact List.take_length r.t
    · constructor
      · show (r.s.drop _).take _ = _
        rw [em1, em2, h2]
        simp only [Nat.sub_self, Nat.zero_div, List.drop_zero, Nat.zero_add,
          Nat.sub_zero]
        exact List.take_length r.s
      · show (r.t.drop _).take _ = _
        rw [em1, em2, h2, ← ht]
        simp only [Nat.sub_self, Nat.zero_div, List.drop_zero, Nat.zero_add,
          Nat.sub_zero]
        exact List.take_length r.t
    · constructor
      · show (r.s.drop _).take _ = _
        rw [ee1, ee2, h2]
        simp only [Nat.sub_self, List.drop_zero, Nat.sub_zero]
        exact List.take_length r.s
      · show (r.t.drop _).take _ = _
        rw [ee1, ee2, h2, ← ht]
        simp only [Nat.sub_self, List.drop_zero, Nat.sub_zero]
        exact List.take_length r.t

/-- C4 (witness): binarate applied to the five-sample record `rc4`
(`n2 = 4`): mode `start` keeps the first four samples, and concretely mode
`middle` keeps `[1,2,3,4]` (the centered block of the source list
`[1,2,3,4,5]`). -/
theorem binarate_spec_witness :
    ((binarate "start" rc4).s = rc4.s.take (binN2 rc4.s.length) ∧
     (binarate "start" rc4).t = rc4.t.take (binN2 rc4.s.length)) ∧
    (binarate "middle" rc4).s = ([1,2,3,4] : List ℚ) := by
  have hlog : Nat.log 2 5 = 2 := Nat.log_eq_of_pow_le_of_lt_pow (by norm_num) (by norm_num)
  have hb : binN2 rc4.s.length = 4 := by
    show 2 ^ Nat.log 2 5 = 4
    rw [hlog]
    rfl
  refine ⟨(binarate_spec rc4 (by decide) (by decide)).1, ?_⟩
  have e1 : binStart "middle" rc4.s.length = 0 := by
    unfold binStart
    rw [if_pos rfl]
    show (5 - binN2 rc4.s.length)/2 = 0
    rw [hb]
  have e2 : binStop "middle" rc4.s.length = 4 := by
    unfold binStop
    rw [if_pos rfl]
    show (5 - binN2 rc4.s.length)/2 + binN2 rc4.s.length = 4
    rw [hb]
  show (rc4.s.drop (binStart "middle" rc4.s.length)).take
      (binStop "middle" rc4.s.length - binStart "middle" rc4.s.length) = _
  rw [e1, e2]
  decide

/-- Evaluation of the right-hand spectrum of the DC-only record `rc6`: the
mask zeroes the non-positive-frequency bins (which carry all the energy) and
the positive-frequency bin is empty, so the right-hand spectrum is identically
zero. -/
theorem swFTrh_rc6_eval :
    swFTrhOf rc6 = [((0:ℚ),(0:ℚ)), (0,0), (0,0), (0,0)] := by
  show List.zipWith scaleQC (rhList rc6.f rc6.df) rc6.swFT = _
  norm_num [rhList, rc6, fftshiftL, fftfreqL, scaleQC, List.range_succ,
    abs_of_nonneg, abs_of_neg]

/-- C6 (counterexample): `filter` on the record `rc6`, whose right-hand
spectrum is identically zero (a DC-only input), does not fail: there is no
failure path in the source.  `np.argmax` over the all-zero magnitude array
returns index `0`, so the stage produces the carrier estimate
`carrierFreqPeak = freqAxis[0] = -1/2` (the most negative frequency) and the
settling time, instead of raising `DegenerateSpectrum`. -/
theorem filter_degenerate_cex :
    (∀ x ∈ swFTrhOf rc6, x = ((0:ℚ), (0:ℚ))) ∧
    (filterStage 1 50 rc6).f0 = -(1/2) ∧
    (filterStage 1 50 rc6).f0 = rc6.f.getD 0 0 ∧
    (filterStage 1 50 rc6).td = 5/4 := by
  have hmap : (swFTrhOf rc6).map normSq = [0,0,0,0] := by
    rw [swFTrh_rc6_eval]
    norm_num [normSq]
  have hA : argmaxQ ((swFTrhOf rc6).map normSq) = 0 := by
    rw [hmap]
    simp [argmaxQ, argmaxAux]
  have hf0 : (filterStage 1 50 rc6).f0 = rc6.f.getD 0 0 := by
    show filterF0 rc6 = _
    unfold filterF0
    rw [hA]
  have hfval : rc6.f.getD 0 0 = -(1/2) := by
    show (fftshiftL (fftfreqL 4 1)).getD 0 0 = _
    norm_num [fftshiftL, fftfreqL, List.range_succ]
  refine ⟨?_, by rw [hf0, hfval], hf0, ?_⟩
  · rw [swFTrh_rc6_eval]
    decide
  · show (5/4 : ℚ) / 1 = 5/4
    norm_num

/-- C6 (amended): on every record whose right-hand spectrum is identically
zero, `filter` does not signal any failure; it produces the carrier estimate
`carrierFreqPeak = freqAxis[0]` (first index, from `np.argmax` of the all-zero
magnitude array), the settling time `1.25/bw`, and a filtered spectrum, and
continues.  (The method-of-moments estimate becomes a float `0.0/0.0 = nan`,
again without raising.) -/
theorem filter_degenerate_amended (r : SignalRec) (bw : ℚ) (ord : ℕ)
    (hz : ∀ x ∈ swFTrhOf r, x = ((0:ℚ), (0:ℚ))) :
    (filterStage bw ord r).f0 = r.f.headD 0 ∧
    (filterStage bw ord r).td = (5/4) / bw ∧
    (filterStage bw ord r).swFTfilt
      = List.zipWith scaleQC (bpList r.f (r.f.headD 0) bw ord) (swFTrhOf r) := by
  have hms : ∀ y ∈ (swFTrhOf r).map normSq, y = 0 := by
    intro y hy
    obtain ⟨x, hx, hxy⟩ := List.mem_map.mp hy
    rw [← hxy, hz x hx]
    norm_num [normSq]
  have hA : argmaxQ ((swFTrhOf r).map normSq) = 0 := argmaxQ_all_zero _ hms
  have hf0 : filterF0 r = r.f.headD 0 := by
    unfold filterF0
    rw [hA, ← headD_eq_getD]
  refine ⟨hf0, rfl, ?_⟩
  show List.zipWith scaleQC (bpList r.f (filterF0 r) bw ord) (swFTrhOf r) = _
  rw [hf0]

/-- C6 (witness): the amended statement applied to the DC-only record `rc6`
with `bw = 1`. -/
theorem filter_degenerate_amended_witness :
    (filterStage 1 50 rc6).f0 = rc6.f.headD 0 ∧
    (filterStage 1 50 rc6).td = (5/4) / 1 := by
  have hz : ∀ x ∈ swFTrhOf rc6, x = ((0:ℚ), (0:ℚ)) := by
    rw [swFTrh_rc6_eval]
    decide
  have h := filter_degenerate_amended rc6 1 50 hz
  exact ⟨h.1, h.2.1⟩

/-- C9: on the centered frequency axis of even length `n` built by the forward
transform (`fftshift(fftfreq(n, d))`, `d > 0`), the frequency step
`df = f[1] - f[0]` equals `1/(n*d)`; the half-bin-shifted value `f - df/2`
that the right-hand mask divides by is nonzero at every index (including at
`f = 0` exactly); and the mask value is `0` wherever `f <= 0` and `2` wherever
`f > 0`. -/
theorem rh_mask_spec (n : ℕ) (d : ℚ) (k : ℕ) (hn2 : Even n) (hn : 0 < n)
    (hd : 0 < d) (hk : k < n) :
    ((fftshiftL (fftfreqL n d)).getD 1 0 - (fftshiftL (fftfreqL n d)).getD 0 0
        = 1 / ((n : ℚ) * d)) ∧
    ((fftshiftL (fftfreqL n d)).getD k 0
        - ((fftshiftL (fftfreqL n d)).getD 1 0
            - (fftshiftL (fftfreqL n d)).getD 0 0)/2 ≠ 0) ∧
    ((rhList (fftshiftL (fftfreqL n d))
        ((fftshiftL (fftfreqL n d)).getD 1 0
          - (fftshiftL (fftfreqL n d)).getD 0 0)).getD k 0
      = if (fftshiftL (fftfreqL n d)).getD k 0 ≤ 0 then 0 else 2) := by
  obtain ⟨m, hm⟩ := hn2
  have hn' : n = 2*m := by omega
  subst hn'
  have hm0 : 0 < m := by omega
  have hden : (0:ℚ) < 2*(m:ℚ)*d := by positivity
  have hd1 : (fftshiftL (fftfreqL (2*m) d)).getD 1 0
      = ((1:ℚ) - (m:ℚ))/(2*(m:ℚ)*d) := by
    have h := centered_axis_getD m d hm0 (by omega : 1 < 2*m)
    rw [h]
    norm_num
  have hd0 : (fftshiftL (fftfreqL (2*m) d)).getD 0 0
      = ((0:ℚ) - (m:ℚ))/(2*(m:ℚ)*d) := by
    have h := centered_axis_getD m d hm0 (by omega : 0 < 2*m)
    rw [h]
    norm_num
  have hdf : (fftshiftL (fftfreqL (2*m) d)).getD 1 0
      - (fftshiftL (fftfreqL (2*m) d)).getD 0 0 = 1/(2*(m:ℚ)*d) := by
    rw [hd1, hd0, div_sub_div_same]
    norm_num
  have hfk : (fftshiftL (fftfreqL (2*m) d)).getD k 0
      = ((k:ℚ) - (m:ℚ))/(2*(m:ℚ)*d) := centered_axis_getD m d hm0 hk
  have hfs : ((k:ℚ) - (m:ℚ))/(2*(m:ℚ)*d) - (1/(2*(m:ℚ)*d))/2
      = (2*(k:ℚ) - 2*(m:ℚ) - 1)/(2*(2*(m:ℚ)*d)) := by
    field_simp
    ring
  have hnum : (2*(k:ℚ) - 2*(m:ℚ) - 1) = 0 → False := by
    intro h0
    have h1 : ((2*k : ℤ) : ℚ) = ((2*m + 1 : ℤ) : ℚ) := by
      push_cast
      linarith
    have h2 : (2*k : ℤ) = 2*m + 1 := by exact_mod_cast h1
    omega
  have hcast : ((2*m : ℕ) : ℚ) = 2*(m:ℚ) := by push_cast; ring
  refine ⟨?_, ?_, ?_⟩
  · rw [hdf, hcast]
  · rw [hfk, hdf, hfs]
    intro h0
    exact hnum (by
      have := div_eq_zero_iff.mp h0
      rcases this with h | h
      · exact h
      · exact absurd h (by positivity))
  · have hlenf : k < (fftshiftL (fftfreqL (2*m) d)).length := by
      rw [fftshiftL_length, fftfreqL_length]
      exact hk
    have hmask : (rhList (fftshiftL (fftfreqL (2*m) d))
        ((fftshiftL (fftfreqL (2*m) d)).getD 1 0
          - (fftshiftL (fftfreqL (2*m) d)).getD 0 0)).getD k 0
        = (fun x => (|x - ((fftshiftL (fftfreqL (2*m) d)).getD 1 0
            - (fftshiftL (fftfreqL (2*m) d)).getD 0 0)/2|
          + (x - ((fftshiftL (fftfreqL (2*m) d)).getD 1 0
            - (fftshiftL (fftfreqL (2*m) d)).getD 0 0)/2))
          / |x - ((fftshiftL (fftfreqL (2*m) d)).getD 1 0
            - (fftshiftL (fftfreqL (2*m) d)).getD 0 0)/2|)
          ((fftshiftL (fftfreqL (2*m) d)).getD k 0) := by
      exact getD_map_lt _ _ 0 0 hlenf
    rw [hmask]
    simp only
    rw [hfk, hdf, hfs]
    by_cases hkm : k ≤ m
    · have hxle : ((k:ℚ) - (m:ℚ))/(2*(m:ℚ)*d) ≤ 0 := by
        apply div_nonpos_of_nonpos_of_nonneg
        · have : (k:ℚ) ≤ (m:ℚ) := by exact_mod_cast hkm
          linarith
        · positivity
      have hfsneg : (2*(k:ℚ) - 2*(m:ℚ) - 1)/(2*(2*(m:ℚ)*d)) < 0 := by
        apply div_neg_of_neg_of_pos
        · have : (k:ℚ) ≤ (m:ℚ) := by exact_mod_cast hkm
          linarith
        · positivity
      rw [if_pos hxle, abs_of_neg hfsneg]
      rw [neg_add_cancel, zero_div]
    · have hklt : (m:ℚ) < (k:ℚ) := by exact_mod_cast Nat.lt_of_not_le hkm
      have hm1 : (m:ℚ) + 1 ≤ (k:ℚ) := by
        have : m + 1 ≤ k := Nat.lt_of_not_le hkm
        exact_mod_cast this
      have hxpos : 0 < ((k:ℚ) - (m:ℚ))/(2*(m:ℚ)*d) := by
        apply div_pos
        · linarith
        · positivity
      have hfspos : 0 < (2*(k:ℚ) - 2*(m:ℚ) - 1)/(2*(2*(m:ℚ)*d)) := by
        apply div_pos
        · linarith
        · positivity
      rw [if_neg (not_le.mpr hxpos), abs_of_pos hfspos]
      rw [← two_mul, mul_div_assoc, div_self (ne_of_gt hfspos), mul_one]

/-- C9 (witness): the mask statement applied to the axis with `n = 4`,
`d = 1`, at the positive-frequency index `k = 3`, together with a fully
concrete evaluation of the mask value there. -/
theorem rh_mask_spec_witness :
    ((fftshiftL (fftfreqL 4 1)).getD 1 0 - (fftshiftL (fftfreqL 4 1)).getD 0 0
        = 1 / (((4:ℕ) : ℚ) * 1)) ∧
    ((fftshiftL (fftfreqL 4 1)).getD 3 0
        - ((fftshiftL (fftfreqL 4 1)).getD 1 0
            - (fftshiftL (fftfreqL 4 1)).getD 0 0)/2 ≠ 0) ∧
    ((rhList (fftshiftL (fftfreqL 4 1))
        ((fftshiftL (fftfreqL 4 1)).getD 1 0
          - (fftshiftL (fftfreqL 4 1)).getD 0 0)).getD 3 0
      = if (fftshiftL (fftfreqL 4 1)).getD 3 0 ≤ 0 then 0 else 2) :=
  rh_mask_spec 4 1 3 (by decide) (by decide) (by norm_num) (by decide)

/-- C5 (counterexample): running the whole pipeline (with length-preserving
kernel stand-ins for the numpy transforms) on the five-sample input
`[0,1,2,3,4]`, `dt = 1`, mode `"middle"`, `tw = 0`, `bw = 5/4` (trim index
`int(td/dt) = 1`) leaves `samples` at length 4 but shrinks `time` to length 2:
`trim` slices `z`, `theta`, `a` and `t` but not `s`, so
`len(samples) == len(time)` fails after the trim stage. -/
theorem pipeline_length_cex :
    rc5.s.length = 4 ∧ rc5.t.length = 2 ∧ rc5.s.length ≠ rc5.t.length ∧
    rc5.s = ([0,1,2,3] : List ℚ) ∧ rc5.t = ([1,2] : List ℚ) := by
  have h0 : (signalInit [0,1,2,3,4] "x" "nm" 1).t = [0,1,2,3,4] := by
    norm_num [signalInit, List.range_succ]
  have hlog : Nat.log 2 5 = 2 :=
    Nat.log_eq_of_pow_le_of_lt_pow (by norm_num) (by norm_num)
  have eb : binN2 5 = 4 := by
    show 2 ^ Nat.log 2 5 = 4
    rw [hlog]
    rfl
  have e1 : binStart "middle" 5 = 0 := by
    unfold binStart
    rw [if_pos rfl, eb]
  have e2 : binStop "middle" 5 = 4 := by
    unfold binStop
    rw [if_pos rfl, eb]
  have h1s : (binarate "middle" (signalInit [0,1,2,3,4] "x" "nm" 1)).s
      = ([0,1,2,3] : List ℚ) := by
    show ((signalInit [0,1,2,3,4] "x" "nm" 1).s.drop (binStart "middle" 5)).take
        (binStop "middle" 5 - binStart "middle" 5) = _
    rw [e1, e2]
    decide
  have h1t : (binarate "middle" (signalInit [0,1,2,3,4] "x" "nm" 1)).t
      = ([0,1,2,3] : List ℚ) := by
    show ((signalInit [0,1,2,3,4] "x" "nm" 1).t.drop (binStart "middle" 5)).take
        (binStop "middle" 5 - binStart "middle" 5) = _
    rw [e1, e2, h0]
    decide
  have hCs : (chainToIfft cxDft cxIdft cxRe cxRe cxBlackman "middle" 0 (5/4) 50
      [0,1,2,3,4] "x" "nm" 1).s = ([0,1,2,3] : List ℚ) := h1s
  have hCt : (chainToIfft cxDft cxIdft cxRe cxRe cxBlackman "middle" 0 (5/4) 50
      [0,1,2,3,4] "x" "nm" 1).t = ([0,1,2,3] : List ℚ) := h1t
  have hidn : pyInt ((chainToIfft cxDft cxIdft cxRe cxRe cxBlackman "middle" 0 (5/4) 50
      [0,1,2,3,4] "x" "nm" 1).td
        / (chainToIfft cxDft cxIdft cxRe cxRe cxBlackman "middle" 0 (5/4) 50
            [0,1,2,3,4] "x" "nm" 1).dt) = 1 := by
    show pyInt (((5/4 : ℚ) / (5/4)) / 1) = 1
    norm_num [pyInt]
  have hs : rc5.s = ([0,1,2,3] : List ℚ) := hCs
  have ht : rc5.t = ([1,2] : List ℚ) := by
    show pyTrimSlice (chainToIfft cxDft cxIdft cxRe cxRe cxBlackman "middle" 0 (5/4) 50
        [0,1,2,3,4] "x" "nm" 1).t
      (pyInt ((chainToIfft cxDft cxIdft cxRe cxRe cxBlackman "middle" 0 (5/4) 50
          [0,1,2,3,4] "x" "nm" 1).td
        / (chainToIfft cxDft cxIdft cxRe cxRe cxBlackman "middle" 0 (5/4) 50
            [0,1,2,3,4] "x" "nm" 1).dt)).toNat = _
    rw [hCt, hidn]
    decide
  refine ⟨by rw [hs]; decide, by rw [ht]; decide, by rw [hs, ht]; decide, hs, ht⟩

/-- C5 (amended): `len(samples) == len(time)` holds from ingest through the
inverse transform: ingest creates them equal, binarate truncates both with the
same index window, and window/fft/filter/ifft leave both untouched (the claim
is stated for arbitrary length-preserving transform kernels, which `samples`
and `time` never pass through).  The trim stage, however, slices `time` (with
`analyticSignal`, `phase`, `amplitude`) and leaves `samples` untouched, so
after trim `len(time)` is `len - 2*idx` (or `0` when `idx = 0`) while
`len(samples)` is unchanged; the fit stage touches neither. -/
theorem pipeline_length_amended
    (dftF : List ℚ → List QC) (idftF : List QC → List QC)
    (angF magF : List QC → List ℚ) (bl : ℕ → List ℚ) (mode : String)
    (tw bw : ℚ) (ord : ℕ) (tgt : ℚ) (s0 : List ℚ) (nm un : String) (dt : ℚ)
    (hwin : 2 * wWidth tw (binarate mode (signalInit s0 nm un dt)).dt
              ≤ (binarate mode (signalInit s0 nm un dt)).s.length) :
    ((signalInit s0 nm un dt).s.length = (signalInit s0 nm un dt).t.length) ∧
    ((binarate mode (signalInit s0 nm un dt)).s.length
        = (binarate mode (signalInit s0 nm un dt)).t.length) ∧
    (window bl tw (binarate mode (signalInit s0 nm un dt))
        = Except.ok (windowOk bl tw (binarate mode (signalInit s0 nm un dt)))) ∧
    ((windowOk bl tw (binarate mode (signalInit s0 nm un dt))).s
        = (binarate mode (signalInit s0 nm un dt)).s ∧
     (windowOk bl tw (binarate mode (signalInit s0 nm un dt))).t
        = (binarate mode (signalInit s0 nm un dt)).t) ∧
    ((chainToIfft dftF idftF angF magF bl mode tw bw ord s0 nm un dt).s
        = (binarate mode (signalInit s0 nm un dt)).s ∧
     (chainToIfft dftF idftF angF magF bl mode tw bw ord s0 nm un dt).t
        = (binarate mode (signalInit s0 nm un dt)).t) ∧
    ((chainToIfft dftF idftF angF magF bl mode tw bw ord s0 nm un dt).s.length
        = (chainToIfft dftF idftF angF magF bl mode tw bw ord s0 nm un dt).t.length) ∧
    ((trimStage (chainToIfft dftF idftF angF magF bl mode tw bw ord s0 nm un dt)).s
        = (chainToIfft dftF idftF angF magF bl mode tw bw ord s0 nm un dt).s) ∧
    ((trimStage (chainToIfft dftF idftF angF magF bl mode tw bw ord s0 nm un dt)).t
        = pyTrimSlice (chainToIfft dftF idftF angF magF bl mode tw bw ord s0 nm un dt).t
            (pyInt ((chainToIfft dftF idftF angF magF bl mode tw bw ord s0 nm un dt).td
              / (chainToIfft dftF idftF angF magF bl mode tw bw ord s0 nm un dt).dt)).toNat) ∧
    ((trimStage (chainToIfft dftF idftF angF magF bl mode tw bw ord s0 nm un dt)).t.length
        = if (pyInt ((chainToIfft dftF idftF angF magF bl mode tw bw ord s0 nm un dt).td
              / (chainToIfft dftF idftF angF magF bl mode tw bw ord s0 nm un dt).dt)).toNat = 0
          then 0
          else (chainToIfft dftF idftF angF magF bl mode tw bw ord s0 nm un dt).t.length
            - 2 * (pyInt ((chainToIfft dftF idftF angF magF bl mode tw bw ord s0 nm un dt).td
                / (chainToIfft dftF idftF angF magF bl mode tw bw ord s0 nm un dt).dt)).toNat) ∧
    ((fitStage tgt (trimStage (chainToIfft dftF idftF angF magF bl mode tw bw ord s0 nm un dt))).s
        = (trimStage (chainToIfft dftF idftF angF magF bl mode tw bw ord s0 nm un dt)).s ∧
     (fitStage tgt (trimStage (chainToIfft dftF idftF angF magF bl mode tw bw ord s0 nm un dt))).t
        = (trimStage (chainToIfft dftF idftF angF magF bl mode tw bw ord s0 nm un dt)).t) := by
  have hts : (signalInit s0 nm un dt).t.length = (signalInit s0 nm un dt).s.length := by
    simp only [signalInit]
    rw [List.length_map, List.length_range]
  have c2 : (binarate mode (signalInit s0 nm un dt)).s.length
      = (binarate mode (signalInit s0 nm un dt)).t.length := by
    show ((_ : List ℚ).take _).length = ((_ : List ℚ).take _).length
    simp only [List.length_take, List.length_drop, hts]
  refine ⟨hts.symm, c2, ?_, ⟨rfl, rfl⟩, ⟨rfl, rfl⟩, c2, rfl, rfl, ?_, ⟨rfl, rfl⟩⟩
  · unfold window
    rw [if_pos hwin]
  · exact pyTrimSlice_length _ _

/-- C5 (witness): the amended statement applied to the concrete pipeline on
`[0,1,2,3,4]` with `tw = 0` and `bw = 5/8` (trim index 2). -/
theorem pipeline_length_amended_witness :
    ((chainToIfft cxDft cxIdft cxRe cxRe cxBlackman "middle" 0 (5/8) 50
        [0,1,2,3,4] "x" "nm" 1).s.length
      = (chainToIfft cxDft cxIdft cxRe cxRe cxBlackman "middle" 0 (5/8) 50
          [0,1,2,3,4] "x" "nm" 1).t.length) ∧
    ((trimStage (chainToIfft cxDft cxIdft cxRe cxRe cxBlackman "middle" 0 (5/8) 50
        [0,1,2,3,4] "x" "nm" 1)).t.length
      = if (pyInt ((chainToIfft cxDft cxIdft cxRe cxRe cxBlackman "middle" 0 (5/8) 50
            [0,1,2,3,4] "x" "nm" 1).td
          / (chainToIfft cxDft cxIdft cxRe cxRe cxBlackman "middle" 0 (5/8) 50
              [0,1,2,3,4] "x" "nm" 1).dt)).toNat = 0
        then 0
        else (chainToIfft cxDft cxIdft cxRe cxRe cxBlackman "middle" 0 (5/8) 50
            [0,1,2,3,4] "x" "nm" 1).t.length
          - 2 * (pyInt ((chainToIfft cxDft cxIdft cxRe cxRe cxBlackman "middle" 0 (5/8) 50
              [0,1,2,3,4] "x" "nm" 1).td
            / (chainToIfft cxDft cxIdft cxRe cxRe cxBlackman "middle" 0 (5/8) 50
                [0,1,2,3,4] "x" "nm" 1).dt)).toNat) := by
  have hw0 : wWidth 0 (binarate "middle" (signalInit [0,1,2,3,4] "x" "nm" 1)).dt = 0 := by
    show (⌈(0:ℚ) / 1⌉).toNat = 0
    norm_num
  have h := pipeline_length_amended cxDft cxIdft cxRe cxRe cxBlackman "middle"
    0 (5/8) 50 1 [0,1,2,3,4] "x" "nm" 1 (by rw [hw0]; exact Nat.zero_le _)
  exact ⟨h.2.2.2.2.2.1, h.2.2.2.2.2.2.2.2.1⟩

/-- Row `i` of a reset (chunk-start subtracted) reshape of the leading
`n_total` entries of a flat array, written per-index. -/
theorem fit_chunk_repr (tgt : ℚ) (r : SignalRec) (l : List ℚ) (i : ℕ)
    (h1 : 1 ≤ pyRound (tgt / r.dt)) (hi : i < fitNtc tgt r)
    (hlen : fitNpc tgt r * fitNtc tgt r ≤ l.length) :
    resetList (chunkOf (l.take (fitNTotal tgt r)) (fitNpc tgt r) i)
      = (List.range (fitNpc tgt r)).map
          (fun j => l.getD (i * fitNpc tgt r + j) 0 - l.getD (i * fitNpc tgt r) 0) := by
  have hpos : 0 < fitNpc tgt r := by
    unfold fitNpc
    omega
  rw [show fitNTotal tgt r = fitNpc tgt r * fitNtc tgt r from rfl,
      chunk_take_repr l _ _ i hi hlen, resetList_map_range _ hpos]
  simp only [Nat.add_zero]

/-- C1: for every chunk `i`, the fit computes the per-chunk frequency as the
ordinary least-squares slope `m = (n*Sxy - Sx*Sy)/(n*Sxx - Sx^2)` with
`n = samplesPerChunk`, where `Sx = dt*n*(n-1)/2` and
`Sxx = dt^2*n*(n-1)*(2n-1)/6` are computed analytically from `n` and `dt`
(the second and third conjuncts check these closed forms against the sums
`sum dt*k` and `sum (dt*k)^2` they replace), `Sy` and `Sxy` are summed from
the chunk's phase and time values after subtracting each chunk's first time
and first phase sample, and `fitTime[i]` is the absolute (pre-reset) time of
chunk `i`'s first sample. -/
theorem fit_slope_spec (r : SignalRec) (tgt : ℚ) (i : ℕ)
    (h1 : 1 ≤ pyRound (tgt / r.dt))
    (hi : i < fitNtc tgt r)
    (hlen : r.t.length = r.theta.length) :
    ((fitStage tgt r).fit_freq.getD i 0
        = ((fitNpc tgt r : ℚ)
              * (∑ j ∈ Finset.range (fitNpc tgt r),
                  ((r.t.getD (i * fitNpc tgt r + j) 0 - r.t.getD (i * fitNpc tgt r) 0)
                    * (r.theta.getD (i * fitNpc tgt r + j) 0
                        - r.theta.getD (i * fitNpc tgt r) 0)))
            - (r.dt * (fitNpc tgt r : ℚ) * ((fitNpc tgt r : ℚ) - 1) / 2)
              * (∑ j ∈ Finset.range (fitNpc tgt r),
                  (r.theta.getD (i * fitNpc tgt r + j) 0
                    - r.theta.getD (i * fitNpc tgt r) 0)))
          / ((fitNpc tgt r : ℚ)
              * (r.dt^2 * (fitNpc tgt r : ℚ) * ((fitNpc tgt r : ℚ) - 1)
                  * (2*(fitNpc tgt r : ℚ) - 1) / 6)
            - (r.dt * (fitNpc tgt r : ℚ) * ((fitNpc tgt r : ℚ) - 1) / 2)^2)) ∧
    (r.dt * (fitNpc tgt r : ℚ) * ((fitNpc tgt r : ℚ) - 1) / 2
        = ∑ j ∈ Finset.range (fitNpc tgt r), (r.dt * (j:ℚ))) ∧
    (r.dt^2 * (fitNpc tgt r : ℚ) * ((fitNpc tgt r : ℚ) - 1) * (2*(fitNpc tgt r : ℚ) - 1) / 6
        = ∑ j ∈ Finset.range (fitNpc tgt r), (r.dt * (j:ℚ))^2) ∧
    ((fitStage tgt r).fit_time.getD i 0 = r.t.getD (i * fitNpc tgt r) 0) := by
  have hpos : 0 < fitNpc tgt r := by
    unfold fitNpc
    omega
  have hlenθ : fitNpc tgt r * fitNtc tgt r ≤ r.theta.length := by
    rw [Nat.mul_comm]
    unfold fitNtc
    exact Nat.div_mul_le_self _ _
  have hlent : fitNpc tgt r * fitNtc tgt r ≤ r.t.length := by
    rw [hlen]
    exact hlenθ
  have hS := fit_chunk_repr tgt r r.theta i h1 hi hlenθ
  have hT := fit_chunk_repr tgt r r.t i h1 hi hlent
  refine ⟨?_, ?_, ?_, ?_⟩
  · show ((List.range (fitNtc tgt r)).map (fitSlope tgt r)).getD i 0 = _
    rw [getD_map_range _ _ hi]
    unfold fitSlope fitSXY fitSY fitSChunk fitTChunk
    rw [hS, hT, zipWith_map_same, sum_map_range, sum_map_range]
    unfold fitSX fitSXX
    ring
  · rw [← Finset.mul_sum, sum_range_cast]
    ring
  · simp only [mul_pow]
    rw [← Finset.mul_sum, sum_range_sq_cast]
    ring
  · show ((List.range (fitNtc tgt r)).map _).getD i 0 = _
    rw [getD_map_range _ _ hi]
    have hch : chunkOf (r.t.take (fitNTotal tgt r)) (fitNpc tgt r) i
        = (List.range (fitNpc tgt r)).map
            (fun j => r.t.getD (i * fitNpc tgt r + j) 0) := by
      rw [show fitNTotal tgt r = fitNpc tgt r * fitNtc tgt r from rfl]
      exact chunk_take_repr r.t _ _ i hi hlent
    rw [hch, headD_eq_getD, getD_map_range _ _ hpos, Nat.add_zero]

/-- C1 (witness): the slope statement applied to the record `rcW`
(phase `[0,2,4,6]` over `t = [0,1,2,3]`, `dt = 1`) with `dtChunkTarget = 2`
and chunk `i = 1`, together with concrete evaluations: the fitted frequency of
chunk 1 is 2 cycles per unit time and its time anchor is `t[2] = 2`. -/
theorem fit_slope_spec_witness :
    (1 ≤ pyRound ((2:ℚ) / rcW.dt)) ∧
    (1 < fitNtc 2 rcW) ∧
    ((fitStage 2 rcW).fit_time.getD 1 0 = rcW.t.getD (1 * fitNpc 2 rcW) 0) ∧
    (fitStage 2 rcW).fit_freq.getD 1 0 = 2 ∧
    (fitStage 2 rcW).fit_time.getD 1 0 = 2 := by
  have h2 : pyRound ((2:ℚ) / rcW.dt) = 2 := by norm_num [pyRound, rcW]
  have h1 : (1:ℤ) ≤ pyRound ((2:ℚ) / rcW.dt) := by
    rw [h2]
    decide
  have hnpc : fitNpc 2 rcW = 2 := by
    show (pyRound ((2:ℚ) / rcW.dt)).toNat = 2
    rw [h2]
    decide
  have hntc : fitNtc 2 rcW = 2 := by
    show rcW.theta.length / fitNpc 2 rcW = 2
    rw [hnpc]
    decide
  have hi : 1 < fitNtc 2 rcW := by
    rw [hntc]
    decide
  have hNT : fitNTotal 2 rcW = 4 := by
    show fitNpc 2 rcW * fitNtc 2 rcW = 4
    rw [hnpc, hntc]
  have hth : chunkOf (rcW.theta.take (fitNTotal 2 rcW)) (fitNpc 2 rcW) 1
      = ([4, 6] : List ℚ) := by
    rw [hNT, hnpc]
    decide
  have htt : chunkOf (rcW.t.take (fitNTotal 2 rcW)) (fitNpc 2 rcW) 1
      = ([2, 3] : List ℚ) := by
    rw [hNT, hnpc]
    decide
  have hrs : resetList ([4, 6] : List ℚ) = [0, 2] := by
    norm_num [resetList]
  have hrt : resetList ([2, 3] : List ℚ) = [0, 1] := by
    norm_num [resetList]
  have hSY : fitSY 2 rcW 1 = 2 := by
    unfold fitSY fitSChunk
    rw [hth, hrs]
    norm_num
  have hSXY : fitSXY 2 rcW 1 = 2 := by
    unfold fitSXY fitSChunk fitTChunk
    rw [hth, htt, hrs, hrt]
    norm_num
  have h := fit_slope_spec rcW 2 1 h1 hi (by decide)
  refine ⟨h1, hi, h.2.2.2, ?_, ?_⟩
  · show ((List.range (fitNtc 2 rcW)).map (fitSlope 2 rcW)).getD 1 0 = 2
    rw [getD_map_range _ _ hi]
    unfold fitSlope
    rw [hSY, hSXY, hnpc]
    unfold fitSX fitSXX
    norm_num [rcW]
  · rw [h.2.2.2, hnpc]
    decide

/-- C8: window computes the taper half-width `w = ceil(tw/dt)` and fails
exactly when `2w > n` (the `np.ones(n - 2w)` allocation raises on a negative
size, leaving the record unchanged — the condition the spec labels
`InvalidInput`); otherwise it records `actualRiseTime = w*dt` and builds a
length-`n` envelope that is the concatenation of the rising Blackman half
(`w` samples), ones (`n - 2w` samples), and the falling Blackman half
(`w` samples), with `windowedSignal = window * samples`. -/
theorem window_spec (blackman : ℕ → List ℚ)
    (hb : ∀ M, (blackman M).length = M) (tw : ℚ) (r : SignalRec)
    (htw : 0 ≤ tw) (hdt : 0 < r.dt) :
    ((wWidth tw r.dt : ℤ) = ⌈tw / r.dt⌉) ∧
    (r.s.length < 2 * wWidth tw r.dt →
      window blackman tw r = Except.error PyErr.valueError) ∧
    (2 * wWidth tw r.dt ≤ r.s.length →
      window blackman tw r = Except.ok (windowOk blackman tw r) ∧
      (windowOk blackman tw r).tw_actual = (wWidth tw r.dt : ℚ) * r.dt ∧
      (windowOk blackman tw r).w
        = (blackman (2 * wWidth tw r.dt)).take (wWidth tw r.dt)
          ++ List.replicate (r.s.length - 2 * wWidth tw r.dt) (1:ℚ)
          ++ pyLastSlice (blackman (2 * wWidth tw r.dt)) (wWidth tw r.dt) ∧
      ((blackman (2 * wWidth tw r.dt)).take (wWidth tw r.dt)).length
        = wWidth tw r.dt ∧
      (pyLastSlice (blackman (2 * wWidth tw r.dt)) (wWidth tw r.dt)).length
        = wWidth tw r.dt ∧
      (windowOk blackman tw r).w.length = r.s.length ∧
      (windowOk blackman tw r).sw
        = List.zipWith (fun x y => x * y) (windowOk blackman tw r).w r.s) := by
  have hcast : (wWidth tw r.dt : ℤ) = ⌈tw / r.dt⌉ :=
    Int.toNat_of_nonneg (Int.ceil_nonneg (div_nonneg htw hdt.le))
  have hb2 : (blackman (2 * wWidth tw r.dt)).length = 2 * wWidth tw r.dt := hb _
  have hlast : (pyLastSlice (blackman (2 * wWidth tw r.dt)) (wWidth tw r.dt)).length
      = wWidth tw r.dt := by
    unfold pyLastSlice
    by_cases hw : wWidth tw r.dt = 0
    · rw [if_pos hw, hb2, hw]
    · rw [if_neg hw, List.length_drop, hb2]
      omega
  refine ⟨hcast, ?_, ?_⟩
  · intro h
    unfold window
    rw [if_neg (by omega)]
  · intro h
    refine ⟨?_, rfl, rfl, ?_, hlast, ?_, rfl⟩
    · unfold window
      rw [if_pos h]
    · rw [List.length_take, hb2]
      omega
    · show (windowEnv blackman (wWidth tw r.dt) r.s.length).length = r.s.length
      unfold windowEnv
      rw [List.length_append, List.length_append, List.length_take,
        List.length_replicate, hb2, hlast]
      omega

/-- C8 (witness): window applied to the four-sample record `rc8` with
`tw = 1`, `dt = 1` (`w = 1`, `2w = 2 <= 4`): it succeeds and, with the
length-2 stand-in taper, the envelope is `[0, 1, 1, 0]`. -/
theorem window_spec_witness :
    ((wWidth 1 rc8.dt : ℤ) = ⌈(1:ℚ) / rc8.dt⌉) ∧
    window cxBlackman 1 rc8 = Except.ok (windowOk cxBlackman 1 rc8) ∧
    (windowOk cxBlackman 1 rc8).w = ([0, 1, 1, 0] : List ℚ) := by
  have hw : wWidth 1 rc8.dt = 1 := by
    have hc : ⌈(1:ℚ) / rc8.dt⌉ = 1 := by norm_num [rc8]
    show (⌈(1:ℚ) / rc8.dt⌉).toNat = 1
    rw [hc]
    decide
  have h := window_spec cxBlackman (fun M => by simp [cxBlackman]) 1 rc8
    (by norm_num) (by norm_num [rc8])
  refine ⟨h.1, (h.2.2 (by rw [hw]; decide)).1, ?_⟩
  show windowEnv cxBlackman (wWidth 1 rc8.dt) rc8.s.length = _
  rw [hw]
  decide

end FreqDemod
